import Mathlib

/-!
Berkeley CS162 homework: shell (hw3) and word-count list (hw1)

A shallow embedding of `src/hw3/shell.c` and `src/hw1/word_count_l.c`.

* A C string is the list of its bytes before the terminating NUL.
* A `char *` that may be `NULL` is an `Option`.
* Memory that `strtok` writes into is a list of bytes that may hold NULs.
* Reads of `NULL`, reads of storage never written, and stores outside an
  array are undefined behaviour in C; the embedding stops there with a `Fault`.
* `printf`/`perror` output is not part of the state and is left out.
* A token owns storage for its bytes and the NUL; the storage of the tokens of a line ends
  with `tokens_destroy` at the end of the pass over that line.
-/

namespace Shell

/-- The bytes of a C string, terminating NUL excluded. -/
abbrev CString := List Char

/-- The terminating byte. -/
def NUL : Char := Char.ofNat 0

/-- Undefined behaviour reached by the C code. -/
inductive Fault where
  /-- store to `args[index]` with `index` outside `char *args[10]` -/
  | outOfBounds (index : Nat)
  /-- a `NULL` pointer is dereferenced -/
  | nullDeref
  /-- storage that was never written is read -/
  | uninitRead
  /-- the call `fclose` is made on something that is not a stream -/
  | badStream
  /-- the call `strtok(NULL, ..)` resumes a scan that an earlier command left behind -/
  | staleScan
  /-- a byte is stored past the end of the storage of a token -/
  | pastToken
  /-- iteration budget of the embedding exhausted (shown not to happen) -/
  | fuel
  deriving DecidableEq, Repr

/-- Result of a piece of C code that may reach undefined behaviour. -/
inductive Res (α : Type) where
  | ok (a : α)
  | fault (f : Fault)
  deriving DecidableEq, Repr

/-- Sequencing of `Res`. -/
def Res.bind {α β : Type} (r : Res α) (k : α → Res β) : Res β :=
  match r with
  | .ok a => k a
  | .fault f => .fault f

/-! ## Builtin table and `lookup` (shell.c:36-58, 105-111) -/

/-- The five handlers `cmd_help`, `cmd_exit`, `cmd_pwd`, `cmd_cd`, `cmd_export`. -/
inductive cmd_fun_t where
  | cmd_help | cmd_exit | cmd_pwd | cmd_cd | cmd_export
  deriving DecidableEq, Repr

/-- Entry of the builtin table: `struct fun_desc`. -/
structure fun_desc_t where
  «fun» : cmd_fun_t
  cmd : CString
  doc : CString
  deriving DecidableEq, Repr

/-- The table `cmd_table[]` of shell.c:52-58. -/
def cmd_table : List fun_desc_t :=
  [ ⟨.cmd_help, "?".toList, "show this help menu".toList⟩,
    ⟨.cmd_exit, "exit".toList, "exit the command shell".toList⟩,
    ⟨.cmd_pwd, "pwd".toList, "show the current working directory".toList⟩,
    ⟨.cmd_cd, "cd".toList, "change current working directory to the first argument".toList⟩,
    ⟨.cmd_export, "export".toList, "export PATH to add directory to program search index".toList⟩ ]

/-- The `for` loop of `lookup` from index `i` on, over the entries not yet visited:
`if (cmd && strcmp(cmd_table[i].cmd, cmd) == 0) return i;` and `return -1` after the loop. -/
def lookupFrom (cmd : Option CString) : List fun_desc_t → Nat → Int
  | [], _ => -1
  | e :: rest, i =>
    match cmd with
    | some c => if e.cmd = c then (i : Int) else lookupFrom cmd rest (i + 1)
    | none => lookupFrom cmd rest (i + 1)

/-- The function `lookup(char cmd[])` of shell.c:106-111. -/
def lookup (cmd : Option CString) : Int :=
  lookupFrom cmd cmd_table 0

/-! ## Tokens -/

/-- Modelled from the spec: `tokens_get_token` of tokenizer.c, which is not among the sources.
A parsed line is an ordered sequence of tokens (spec section 3) and the loop at shell.c:185
relies on `NULL` for every index past the last token. -/
def tokens_get_token (tokens : List CString) (n : Nat) : Option CString :=
  tokens.get? n

/-! ## Argument vector construction (shell.c:180-204) -/

/-- Number of slots of `char *args[10]`. -/
def ARGS_SIZE : Nat := 10

/-- Content of one slot of `args`. -/
inductive Slot where
  /-- never written -/
  | uninit
  /-- the pointer `NULL` -/
  | null
  /-- pointer to a string -/
  | str (s : CString)
  deriving DecidableEq, Repr

/-- A `char *` stored into a slot. -/
def Slot.ofPtr : Option CString → Slot
  | none => .null
  | some s => .str s

/-- The store `args[i] = v`; outside the array it is undefined behaviour. -/
def store (args : List Slot) (i : Nat) (v : Slot) : Res (List Slot) :=
  if i < ARGS_SIZE then .ok (args.set i v) else .fault (.outOfBounds i)

/-- Locals of the `else` branch of `main`: `args`, `in_file`, `out_file`, `position`. -/
structure ArgState where
  args : List Slot
  in_file : Option CString
  out_file : Option CString
  position : Nat
  deriving DecidableEq, Repr

/-- Locals at shell.c:180-183, before the loop. -/
def ArgState.init : ArgState :=
  ⟨List.replicate ARGS_SIZE .uninit, none, none, 0⟩

/-- The `while` loop of shell.c:185-203. Every iteration that does not leave the loop
advances `position` by one, so `tokens.length + 1` iterations always suffice. -/
def argLoop (tokens : List CString) : Nat → ArgState → Res ArgState
  | 0, _ => .fault .fuel
  | fuel + 1, st =>
    match tokens_get_token tokens st.position with
    | none => .ok st
    | some token =>
      if token = ">".toList then
        -- out_file = tokens_get_token(tokens, ++position); break;
        .ok { st with out_file := tokens_get_token tokens (st.position + 1),
                      position := st.position + 1 }
      else if token = "<".toList then
        -- in_file = tokens_get_token(tokens, ++position);
        -- args[position++] = "<"; args[position++] = in_file; break;
        let in_file := tokens_get_token tokens (st.position + 1)
        (store st.args (st.position + 1) (.str "<".toList)).bind fun a1 =>
        (store a1 (st.position + 2) (Slot.ofPtr in_file)).bind fun a2 =>
        .ok { st with args := a2, in_file := in_file, position := st.position + 3 }
      else
        -- args[position++] = token;
        (store st.args st.position (.str token)).bind fun a1 =>
        argLoop tokens fuel { st with args := a1, position := st.position + 1 }

/-- Lines 180-204: the loop followed by `args[position] = NULL`. -/
def buildArgs (tokens : List CString) : Res ArgState :=
  (argLoop tokens (tokens.length + 1) ArgState.init).bind fun st =>
  (store st.args st.position .null).bind fun a =>
  .ok { st with args := a }

/-- The vector a callee sees through `char *argv[]`: the strings before the first `NULL`.
Reaching a slot that was never written is a read of an indeterminate pointer. -/
def argvOf : List Slot → Res (List CString)
  | [] => .fault (.outOfBounds ARGS_SIZE)
  | .null :: _ => .ok []
  | .uninit :: _ => .fault .uninitRead
  | .str s :: rest => (argvOf rest).bind fun v => .ok (s :: v)

/-! ## `strtok` -/

/-- Scan state of `strtok` inside one buffer: the bytes before the saved pointer and the
bytes from it on. An empty `after` is the terminating NUL of the buffer. -/
structure Scan where
  before : List Char
  after : List Char
  deriving DecidableEq, Repr

/-- Bytes of the buffer a scan lives in. -/
def Scan.buffer (s : Scan) : List Char := s.before ++ s.after

/-- The C string that starts a run of bytes. -/
def cstr (mem : List Char) : CString := mem.takeWhile (fun c => decide (c ≠ NUL))

/-- One call of the C library `strtok` continuing at the saved pointer: skip leading
delimiters (`strspn`); at the NUL return `NULL`; otherwise the token runs to the next delimiter
or NUL (`strcspn`), a delimiter there is overwritten by NUL and the saved pointer moves past it.
`strtok(str, delim)` with `str != NULL` is the same on `⟨[], bytes from str on⟩`. -/
def strtok (s : Scan) (delim : List Char) : Option CString × Scan :=
  let isDelim := fun c => decide (c ≠ NUL) && decide (c ∈ delim)
  let inToken := fun c => decide (c ≠ NUL) && !decide (c ∈ delim)
  let skipped := s.after.takeWhile isDelim
  let start := s.after.dropWhile isDelim
  match start with
  | [] => (none, ⟨s.before ++ skipped, start⟩)
  | c :: _ =>
    if c = NUL then (none, ⟨s.before ++ skipped, start⟩)
    else
      let token := start.takeWhile inToken
      match start.dropWhile inToken with
      | [] => (some token, ⟨s.before ++ skipped ++ token, []⟩)
      | d :: rest =>
        if d = NUL then (some token, ⟨s.before ++ skipped ++ token, d :: rest⟩)
        else (some token, ⟨s.before ++ skipped ++ token ++ [NUL], rest⟩)

/-! ## Path resolution (shell.c:142-158, 205-220) -/

/-- Directory listings: `none` when `opendir` fails, else the `d_name`s `readdir` yields. -/
abbrev Listing := CString → Option (List CString)

/-- The `readdir` loop of `is_in_path`: `strcmp(ent->d_name, prog) == 0` returns true. -/
def readdirLoop (prog : CString) : List CString → Bool
  | [] => false
  | d_name :: rest => if d_name = prog then true else readdirLoop prog rest

/-- The function `is_in_path(prog, path)` of shell.c:142-158. -/
def is_in_path (ls : Listing) (prog path : CString) : Bool :=
  match ls path with
  | some entries => readdirLoop prog entries
  | none => false

/-- What the resolution block leaves behind: `args[0]`, the bytes of the `PATH` buffer,
and the directories handed to `opendir`, in order. -/
structure Resolved where
  program : CString
  PATH : List Char
  opened : List CString
  deriving DecidableEq, Repr

/-- The loop `while (path) { .. path = strtok(NULL, ":"); }` of shell.c:208-219, entered with
the result of the preceding `strtok` call. Every further call consumes at least one byte, so
one more iteration than the buffer has bytes always suffices. -/
def searchLoop (ls : Listing) (prog : CString) :
    Nat → Option CString → Scan → List CString → Res Resolved
  | 0, _, _, _ => .fault .fuel
  | _ + 1, none, sc, opened => .ok ⟨prog, sc.buffer, opened⟩
  | fuel + 1, some path, sc, opened =>
    if is_in_path ls prog path then
      -- program = path "/" args[0]; args[0] = program; break;
      .ok ⟨path ++ '/' :: prog, sc.buffer, opened ++ [path]⟩
    else
      let r := strtok sc [':']
      searchLoop ls prog fuel r.1 r.2 (opened ++ [path])

/-- Lines 206-220 for `args[0] = name`: unless `strlen(args[0]) > 0 && args[0][0] == '/'`,
walk the directories of `PATH` with `strtok(PATH, ":")`. -/
def resolve (ls : Listing) (PATH : List Char) (name : CString) : Res Resolved :=
  if 0 < name.length ∧ name.head? = some '/' then .ok ⟨name, PATH, []⟩
  else
    let r := strtok ⟨[], PATH⟩ [':']
    searchLoop ls name (PATH.length + 1) r.1 r.2 []

/-! ## `cmd_export` (shell.c:95-103) -/

/-- Modelled from the spec: the storage tokenizer.c (not among the sources) gives a token. Tokens
are strings of their own that never alias (spec section 3), so the storage of a token holds its
bytes and the terminating NUL and nothing behind them; the number of its bytes. -/
def tokenStorage (token : CString) : Nat := token.length + 1

/-- Offset, in the buffer of the scan, of the NUL that ends the token a call of `strtok` has
just returned: the delimiter the call overwrote, or the NUL at which the token stopped. -/
def tokenEnd (s : Scan) : Nat :=
  if s.before.getLast? = some NUL then s.before.length - 1 else s.before.length

/-- The builtin `cmd_export`, with `PATH` pointing to a string outside the tokens. All three
calls of `strtok` and both calls of `strcat` work in place inside the storage of token 1:
`strcat(strcat(path, ":"), PATH)` stores `:` over the NUL that ends `path`, the bytes of `PATH`
behind it and a NUL, and `PATH` then points to `path`, inside token 1. The result is the string
`PATH` points to when `cmd_export` returns. Without a second token `strtok(NULL, ":")` resumes
whatever scan an earlier command left, which this embedding does not follow. -/
def cmd_export (tokens : List CString) (PATH : List Char) : Res (List Char) :=
  match tokens_get_token tokens 1 with
  | none => .fault .staleScan
  | some arg =>
    -- char *path = strtok(arg, ":");
    let r1 := strtok ⟨[], arg⟩ [':']
    -- path = strtok(path, "=");   a NULL path resumes the scan of arg
    let r2 := match r1.1 with
      | some path =>
        let start := tokenEnd r1.2 - path.length
        strtok ⟨r1.2.buffer.take start, r1.2.buffer.drop start⟩ ['=']
      | none => strtok r1.2 ['=']
    -- path = strtok(NULL, "=");
    let r3 := strtok r2.2 ['=']
    match r3.1 with
    | none => .fault .nullDeref
    | some path =>
      -- PATH = strcat(strcat(path, const_colon), PATH);
      if tokenEnd r3.2 + 1 + (cstr PATH).length < tokenStorage arg then
        .ok (path ++ ':' :: cstr PATH)
      else .fault .pastToken

/-! ## The child after `fork` (shell.c:222-241) -/

/-- How the code of the child ends. -/
inductive ChildEnd where
  /-- the call `execv` succeeded: the program image is replaced -/
  | replaced (program : Slot) (args : List Slot)
  /-- the child called `exit(status)` -/
  | exited (status : Int)
  /-- control left the `if (pid == 0)` block and went on in the read-eval loop -/
  | returned
  /-- undefined behaviour -/
  | fault (f : Fault)
  deriving DecidableEq, Repr

/-- What the operating system answers to the child: whether `fopen(name, mode)` yields a
stream, and whether `execv(program, args)` replaces the image (`true`) or returns -1. -/
structure ChildOS where
  fopen : CString → Bool
  execv : Slot → List Slot → Bool

/-- Lines 223-241, run in the process where `fork` returned 0. -/
def child (os : ChildOS) (st : ArgState) : ChildEnd :=
  -- if (out_file) { FILE *new_fd = fopen(out_file, "wb"); dup2(fileno(new_fd), ..); .. }
  let afterOut : Option Fault :=
    match st.out_file with
    | some f => if os.fopen f then none else some .nullDeref
    | none => none
  match afterOut with
  | some f => .fault f
  | none =>
    -- if (in_file) { fclose(in_file); .. }   in_file is a char *, not a stream
    match st.in_file with
    | some _ => .fault .badStream
    | none =>
      -- if (execv(args[0], args) != 0) perror("Program failed."); exit(0);
      if os.execv (st.args.headD .uninit) st.args then
        .replaced (st.args.headD .uninit) st.args
      else .exited 0

/-! ## One pass of the read-eval loop (shell.c:170-254) -/

/-- Calls a pass of the loop makes in the shell process. -/
inductive Event where
  /-- the call `cmd_table[fundex].fun(tokens)` -/
  | builtin (f : cmd_fun_t)
  /-- the call `opendir(path)` inside `is_in_path` -/
  | opendir (path : CString)
  /-- the call `fork()`, with the locals the child starts from -/
  | fork (locals : ArgState)
  /-- the call `wait(pid)` -/
  | wait
  deriving DecidableEq, Repr

/-- How a pass of the loop body ends in the shell process. -/
inductive Outcome where
  /-- the end of the body is reached and `fgets` reads the next line -/
  | next (PATH : List Char) (trace : List Event)
  /-- the end of the body is reached with `PATH` pointing into token 1, whose storage
  `tokens_destroy(tokens)` has just ended: every later read of `PATH` reads freed storage -/
  | nextFreed (trace : List Event)
  /-- the shell process exits -/
  | exit (status : Int)
  /-- undefined behaviour -/
  | fault (f : Fault)
  deriving DecidableEq, Repr

/-- The call `cmd_table[fundex].fun(tokens)` of shell.c:178, followed by the rest of the pass
up to `tokens_destroy(tokens)` at shell.c:253. Effects on the working directory and on standard
output are not part of the state. -/
def runBuiltin (f : cmd_fun_t) (tokens : List CString) (PATH : List Char) : Outcome :=
  match f with
  | .cmd_exit => .exit 0
  | .cmd_export =>
    match cmd_export tokens PATH with
    | .ok _ => .nextFreed [.builtin .cmd_export]
    | .fault e => .fault e
  | g => .next PATH [.builtin g]

/-- The body of `while (fgets(line, 4096, stdin))` for a line with the given tokens. -/
def step (ls : Listing) (PATH : List Char) (tokens : List CString) : Outcome :=
  let fundex := lookup (tokens_get_token tokens 0)
  if 0 ≤ fundex then
    match cmd_table.get? fundex.toNat with
    | some e => runBuiltin e.fun tokens PATH
    | none => .fault (.outOfBounds fundex.toNat)
  else
    match buildArgs tokens with
    | .fault f => .fault f
    | .ok st =>
      -- strlen(args[0]) > 0 && args[0][0] == '/'
      match st.args.headD .uninit with
      | .null => .fault .nullDeref
      | .uninit => .fault .uninitRead
      | .str name =>
        match resolve ls PATH name with
        | .fault f => .fault f
        | .ok r =>
          -- int pid = fork(); .. else wait(pid);
          .next r.PATH (r.opened.map Event.opendir ++
            [.fork { st with args := st.args.set 0 (.str r.program) }, .wait])

/-! ## The search path as the spec words it -/

/-- The SearchPath of the spec: the directory strings obtained by splitting the string held in
`PATH` at the colons, in order. -/
def searchPath (PATH : List Char) : List CString := (cstr PATH).splitOn ':'

/-- The directory strings of the search path that are not empty. -/
def searchDirs (PATH : List Char) : List CString :=
  (searchPath PATH).filter (fun d => decide (d ≠ []))

/-- The listing of directory `d` contains an entry exactly equal to `name`; a directory
that cannot be read contains nothing. -/
def listed (ls : Listing) (name d : CString) : Bool :=
  match ls d with
  | some entries => decide (name ∈ entries)
  | none => false

/-- The directories visited by a search that stops at the first hit. -/
def visited (hit : CString → Bool) : List CString → List CString
  | [] => []
  | d :: ds => if hit d then [d] else d :: visited hit ds

/-- An example file system: `/usr/bin` holds `ls` and `cat`, `/a` holds `foo`, and no other
directory can be opened. -/
def lsDemo : Listing := fun d =>
  if d = "/usr/bin".toList then some ["ls".toList, "cat".toList]
  else if d = "/a".toList then some ["foo".toList]
  else none

end Shell

namespace WordCount

open Shell (CString)

/-! ## Word-count list (word_count_l.c) -/

/-- Largest value of the C type `int`. -/
def INT_MAX : Int := 2147483647

/-- Smallest value of the C type `int`. -/
def INT_MIN : Int := -2147483648

/-- Value of an `int` computation, reduced to 32 bits two's complement. -/
def toInt32 (x : Int) : Int := (x + 2147483648) % 4294967296 - 2147483648

/-- Conversion of an `int` to the 64-bit `size_t`. -/
def toSizeT (x : Int) : Nat := (x % 18446744073709551616).toNat

/-- Modelled from the spec: `word_count_t` of word_count.h, which is not among the sources;
the entry of a word and its count (spec section 6), with the fields `word` and `count` that
word_count_l.c reads and writes. The list links `elem` are the order of the Lean list. -/
structure word_count_t where
  word : CString
  count : Int
  deriving DecidableEq, Repr

/-- Modelled from the spec: `word_count_list_t` with `PINTOS_LIST`, the Pintos list of list.h,
which is not among the sources; an ordered collection of entries (spec section 6), front
first: `list_begin`/`list_next` walk it from the front and `list_push_back` appends. -/
abbrev word_count_list_t := List word_count_t

/-- The list after `init_words`: `list_init` leaves it empty. -/
def init_words : word_count_list_t := []

/-- The loop of `len_words`: `cnt++` for every element, on an `int`. -/
def lenLoop : word_count_list_t → Int → Int
  | [], cnt => cnt
  | _ :: rest, cnt => lenLoop rest (toInt32 (cnt + 1))

/-- The function `len_words`: the `int` counter is returned as `size_t`. -/
def len_words (wclist : word_count_list_t) : Nat :=
  toSizeT (lenLoop wclist 0)

/-- The function `find_word`: the first element whose word compares equal, as its position
in the list (the pointer `wc`), or `none` for `NULL`. -/
def find_word : word_count_list_t → CString → Option Nat
  | [], _ => none
  | wc :: rest, word =>
    if wc.word = word then some 0 else (find_word rest word).map (· + 1)

/-- The statement `found->count++` applied to the element at a position. -/
def incrCount : word_count_list_t → Nat → word_count_list_t
  | [], _ => []
  | wc :: rest, 0 => { wc with count := toInt32 (wc.count + 1) } :: rest
  | wc :: rest, i + 1 => wc :: incrCount rest i

/-- The function `add_word_with_count`: the list afterwards and the element returned. -/
def add_word_with_count (wclist : word_count_list_t) (word : CString) (count : Int) :
    word_count_list_t × Nat :=
  match find_word wclist word with
  | some found => (incrCount wclist found, found)
  | none => (wclist ++ [⟨word, count⟩], wclist.length)

/-- The function `add_word`. -/
def add_word (wclist : word_count_list_t) (word : CString) : word_count_list_t × Nat :=
  add_word_with_count wclist word 1

/-- Adding the words of a sequence one after the other to an initialised list. -/
def add_words (ws : List CString) : word_count_list_t :=
  ws.foldl (fun l w => (add_word l w).1) init_words

end WordCount

namespace Shell

/-! ## `lookup` -/

/-- The loop of `lookup` either runs off the table, and then no entry has the name, or stops at
the first entry with the name. -/
theorem lookupFrom_cases (c : CString) (tbl : List fun_desc_t) (k : Nat) :
    (lookupFrom (some c) tbl k = -1 ∧ ∀ e ∈ tbl, e.cmd ≠ c) ∨
    (∃ i e, lookupFrom (some c) tbl k = ((k + i : Nat) : Int) ∧ tbl[i]? = some e ∧ e.cmd = c ∧
      ∀ j e', j < i → tbl[j]? = some e' → e'.cmd ≠ c) := by
  induction tbl generalizing k with
  | nil => left; simp [lookupFrom]
  | cons a rest ih =>
    by_cases h : a.cmd = c
    · right
      refine ⟨0, a, ?_, by simp, h, ?_⟩
      · simp [lookupFrom, h]
      · intro j e' hj; omega
    · rcases ih (k + 1) with ⟨h1, h2⟩ | ⟨i, e, h1, h2, h3, h4⟩
      · left
        refine ⟨by simp [lookupFrom, h, h1], ?_⟩
        intro e he
        rcases List.mem_cons.mp he with rfl | he
        · exact h
        · exact h2 e he
      · right
        refine ⟨i + 1, e, ?_, by simpa using h2, h3, ?_⟩
        · simp only [lookupFrom, h, if_false, h1]
          push_cast; ring
        · intro j e' hj hje
          cases j with
          | zero => simp at hje; subst hje; exact h
          | succ j => exact h4 j e' (by omega) (by simpa using hje)

/-- C4: `lookup` is an exact-match, first-match-wins search of `cmd_table`: it is -1 for
`NULL`; it is -1 exactly when no entry has the name; it is `i` exactly when entry `i` has the
name and no earlier entry has; and at most one entry of the table has any given name. -/
theorem lookup_exact_first_match (name : CString) :
    lookup none = -1 ∧
    (lookup (some name) = -1 ↔ ∀ e ∈ cmd_table, e.cmd ≠ name) ∧
    (∀ i : Nat, lookup (some name) = (i : Int) ↔
      (∃ e, cmd_table[i]? = some e ∧ e.cmd = name) ∧
        ∀ j e, j < i → cmd_table[j]? = some e → e.cmd ≠ name) ∧
    (∀ (i j : Nat) (e e' : fun_desc_t), cmd_table[i]? = some e → cmd_table[j]? = some e' →
      e.cmd = name → e'.cmd = name → i = j) := by
  have huniq : ∀ (i j : Nat) (e e' : fun_desc_t), cmd_table[i]? = some e →
      cmd_table[j]? = some e' → e.cmd = e'.cmd → i = j := by
    intro i j e e' hi hj hc
    have hi5 : i < 5 := by
      have := (List.getElem?_eq_some.mp hi).1; simpa [cmd_table] using this
    have hj5 : j < 5 := by
      have := (List.getElem?_eq_some.mp hj).1; simpa [cmd_table] using this
    interval_cases i <;> interval_cases j <;> simp [cmd_table] at hi hj <;>
      subst hi <;> subst hj <;> first | rfl | (exact absurd hc (by decide))
  refine ⟨by decide, ?_, ?_, ?_⟩
  · rcases lookupFrom_cases name cmd_table 0 with ⟨h1, h2⟩ | ⟨i, e, h1, h2, h3, _⟩
    · exact ⟨fun _ => h2, fun _ => h1⟩
    · constructor
      · intro h
        rw [lookup, h1] at h
        omega
      · intro h
        exact absurd h3 (h e (List.getElem?_mem h2))
  · intro i
    rcases lookupFrom_cases name cmd_table 0 with ⟨h1, h2⟩ | ⟨i', e, h1, h2, h3, h4⟩
    · constructor
      · intro h
        rw [lookup, h1] at h
        omega
      · rintro ⟨⟨e, he, hc⟩, _⟩
        exact absurd hc (h2 e (List.getElem?_mem he))
    · constructor
      · intro h
        rw [lookup, h1] at h
        have : i = i' := by omega
        subst this
        exact ⟨⟨e, h2, h3⟩, h4⟩
      · rintro ⟨⟨e2, he2, hc2⟩, _⟩
        have : i = i' := huniq i i' e2 e he2 h2 (hc2.trans h3.symm)
        subst this
        rw [lookup, h1]
        simp
  · intro i j e e' hi hj hc hc'
    exact huniq i j e e' hi hj (hc.trans hc'.symm)

/-! ## Argument vector -/

theorem set_at_boundary (pre : List Slot) (k : Nat) (v : Slot) :
    (pre ++ List.replicate (k + 1) Slot.uninit).set pre.length v =
      pre ++ v :: List.replicate k Slot.uninit := by
  induction pre with
  | nil => simp [List.replicate_succ]
  | cons a rest ih => simpa using ih

/-- The loop over a line without redirection tokens that fits the array copies the tokens
from `position` on into the slots of the same index. -/
theorem argLoop_plain (tokens : List CString) (hlen : tokens.length < ARGS_SIZE)
    (hplain : ∀ t ∈ tokens, t ≠ "<".toList ∧ t ≠ ">".toList) :
    ∀ (fuel : Nat) (st : ArgState), st.position ≤ tokens.length →
      tokens.length - st.position < fuel →
      st.args = (tokens.take st.position).map Slot.str ++
        List.replicate (ARGS_SIZE - st.position) Slot.uninit →
      argLoop tokens fuel st =
        .ok ⟨tokens.map Slot.str ++ List.replicate (ARGS_SIZE - tokens.length) Slot.uninit,
          st.in_file, st.out_file, tokens.length⟩ := by
  intro fuel
  induction fuel with
  | zero => intro st _ h; omega
  | succ fuel ih =>
    intro st hpos hfuel hargs
    rcases Nat.lt_or_ge st.position tokens.length with hlt | hge
    · have hget : tokens_get_token tokens st.position = some (tokens[st.position]) := by
        simp [tokens_get_token, List.getElem?_eq_getElem hlt]
      have hmem : tokens[st.position] ∈ tokens := List.getElem_mem hlt
      have hne := hplain _ hmem
      have hstore : store st.args st.position (.str tokens[st.position]) =
          .ok ((tokens.take (st.position + 1)).map Slot.str ++
            List.replicate (ARGS_SIZE - (st.position + 1)) Slot.uninit) := by
        have hp : st.position < ARGS_SIZE := by omega
        have hk : ARGS_SIZE - st.position = (ARGS_SIZE - (st.position + 1)) + 1 := by omega
        have hl : ((tokens.take st.position).map Slot.str).length = st.position := by
          simp [List.length_take]; omega
        rw [store, if_pos hp, hargs, hk]
        have := set_at_boundary ((tokens.take st.position).map Slot.str)
          (ARGS_SIZE - (st.position + 1)) (.str tokens[st.position])
        have ht : tokens.take (st.position + 1) = tokens.take st.position ++ [tokens[st.position]] := by
          rw [List.take_succ, List.getElem?_eq_getElem hlt]; rfl
        rw [hl] at this
        rw [this, ht, List.map_append, List.append_assoc]
        rfl
      rw [argLoop, hget]
      simp only [hne.1, hne.2, if_false, hstore, Res.bind]
      rw [ih _ (by simpa using hlt) (by simp; omega) (by simp)]
    · have hpe : st.position = tokens.length := by omega
      have hget : tokens_get_token tokens st.position = none := by
        simp [tokens_get_token, hpe]
      rw [argLoop, hget]
      simp only
      rw [hpe, List.take_length] at hargs
      cases st
      simp_all

/-- For every token sequence of at most 9 tokens, none of them `<` or `>`, argument-vector
construction stays inside `char *args[10]` and leaves exactly the tokens, in order and program
name first, followed by the terminating `NULL`; no redirection file is set. -/
theorem buildArgs_within_storage (tokens : List CString) (h9 : tokens.length ≤ 9)
    (hplain : ∀ t ∈ tokens, t ≠ "<".toList ∧ t ≠ ">".toList) :
    buildArgs tokens =
      .ok ⟨tokens.map Slot.str ++ Slot.null :: List.replicate (9 - tokens.length) Slot.uninit,
        none, none, tokens.length⟩ ∧
    argvOf (tokens.map Slot.str ++ Slot.null :: List.replicate (9 - tokens.length) Slot.uninit) =
      .ok tokens := by
  have hlen : tokens.length < ARGS_SIZE := by simp [ARGS_SIZE]; omega
  constructor
  · have h := argLoop_plain tokens hlen hplain (tokens.length + 1) ArgState.init
      (by simp [ArgState.init]) (by simp [ArgState.init]) (by simp [ArgState.init])
    have hk : ARGS_SIZE - tokens.length = (9 - tokens.length) + 1 := by simp [ARGS_SIZE]; omega
    have hs := set_at_boundary (tokens.map Slot.str) (9 - tokens.length) Slot.null
    rw [List.length_map] at hs
    rw [buildArgs, h]
    simp only [Res.bind, store, if_pos hlen, ArgState.init, hk, hs]
  · generalize List.replicate (9 - tokens.length) Slot.uninit = tail
    clear h9 hplain hlen
    induction tokens with
    | nil => simp [argvOf]
    | cons t rest ih => simp [argvOf, ih, Res.bind]

/-- C8 (evaluation): a line of 10 tokens without `<` or `>`, as many as the comment
`10 args at most` allows, fills `args[0]` to `args[9]` and then makes the construction store
`NULL` into `args[10]`, one past the last slot of `char *args[10]`. -/
theorem buildArgs_ten_tokens_overflow :
    (["echo", "1", "2", "3", "4", "5", "6", "7", "8", "9"].map String.toList).length = 10 ∧
    (∀ t ∈ ["echo", "1", "2", "3", "4", "5", "6", "7", "8", "9"].map String.toList,
      t ≠ "<".toList ∧ t ≠ ">".toList) ∧
    buildArgs (["echo", "1", "2", "3", "4", "5", "6", "7", "8", "9"].map String.toList) =
      .fault (.outOfBounds 10) := by
  decide

/-- C1 (evaluation): on `cat < in.txt` the vector handed to the program holds the redirection
token and the file name, after a slot that is never written; on `ls > out.txt` the slot of the
`>` token is never written and the `NULL` lands one slot later. -/
theorem buildArgs_redirection_eval :
    buildArgs ["cat".toList, "<".toList, "in.txt".toList] =
      .ok ⟨[.str "cat".toList, .uninit, .str "<".toList, .str "in.txt".toList, .null,
          .uninit, .uninit, .uninit, .uninit, .uninit], some "in.txt".toList, none, 4⟩ ∧
    buildArgs ["ls".toList, ">".toList, "out.txt".toList] =
      .ok ⟨[.str "ls".toList, .uninit, .null,
          .uninit, .uninit, .uninit, .uninit, .uninit, .uninit, .uninit],
        none, some "out.txt".toList, 2⟩ := by
  decide

theorem store_ne_fuel (args : List Slot) (i : Nat) (v : Slot) :
    store args i v ≠ .fault .fuel := by
  unfold store
  split <;> simp

/-- The iteration budget given to the loop is never used up. -/
theorem argLoop_fuel (tokens : List CString) :
    ∀ (fuel : Nat) (st : ArgState), tokens.length - st.position < fuel →
      argLoop tokens fuel st ≠ .fault .fuel := by
  intro fuel
  induction fuel with
  | zero => intro st h; omega
  | succ fuel ih =>
    intro st hf
    rw [argLoop]
    cases hg : tokens_get_token tokens st.position with
    | none => simp
    | some token =>
      have hlt : st.position < tokens.length := by
        have := List.getElem?_eq_some.mp (show tokens[st.position]? = some token by
          simpa [tokens_get_token] using hg)
        exact this.1
      simp only
      by_cases hgt : token = ">".toList
      · rw [if_pos hgt]; simp
      · rw [if_neg hgt]
        by_cases hl : token = "<".toList
        · rw [if_pos hl]
          cases h1 : store st.args (st.position + 1) (.str "<".toList) with
          | fault f =>
            have := store_ne_fuel st.args (st.position + 1) (.str "<".toList)
            rw [h1] at this
            simpa [Res.bind] using this
          | ok a1 =>
            cases h2 : store a1 (st.position + 2)
                (Slot.ofPtr (tokens_get_token tokens (st.position + 1))) with
            | fault f =>
              have := store_ne_fuel a1 (st.position + 2)
                (Slot.ofPtr (tokens_get_token tokens (st.position + 1)))
              rw [h2] at this
              simpa [Res.bind, h2] using this
            | ok a2 => simp [Res.bind, h2]
        · rw [if_neg hl]
          cases h1 : store st.args st.position (.str token) with
          | fault f =>
            have := store_ne_fuel st.args st.position (.str token)
            rw [h1] at this
            simpa [Res.bind] using this
          | ok a1 =>
            simp only [Res.bind]
            exact ih _ (by simp; omega)

/-- Argument-vector construction always comes to an end: with a result, or at a store outside
the array. -/
theorem buildArgs_ne_fuel (tokens : List CString) : buildArgs tokens ≠ .fault .fuel := by
  unfold buildArgs
  cases h1 : argLoop tokens (tokens.length + 1) ArgState.init with
  | fault f =>
    have := argLoop_fuel tokens (tokens.length + 1) ArgState.init (by simp [ArgState.init])
    rw [h1] at this
    simpa [Res.bind] using this
  | ok st =>
    cases h2 : store st.args st.position .null with
    | fault f =>
      have := store_ne_fuel st.args st.position .null
      rw [h2] at this
      simpa [Res.bind, h2] using this
    | ok a => simp [Res.bind, h2]

/-! ## `strtok` and path resolution -/

theorem cstr_nil : cstr [] = [] := rfl

theorem cstr_cons (c : Char) (t : List Char) :
    cstr (c :: t) = if c = NUL then [] else c :: cstr t := by
  by_cases h : c = NUL <;> simp [cstr, List.takeWhile_cons, h]

/-- Splitting the string of a run of bytes at the colons: the first segment is what `strcspn`
measures, and the split continues behind a colon that ends it. -/
theorem splitOn_cstr (l : List Char) :
    (cstr l).splitOn ':' =
      match l.dropWhile (fun c => decide (c ≠ NUL) && !decide (c ∈ [':'])) with
      | [] => [l.takeWhile (fun c => decide (c ≠ NUL) && !decide (c ∈ [':']))]
      | d :: rest =>
        if d = NUL then [l.takeWhile (fun c => decide (c ≠ NUL) && !decide (c ∈ [':']))]
        else l.takeWhile (fun c => decide (c ≠ NUL) && !decide (c ∈ [':'])) ::
          (cstr rest).splitOn ':' := by
  induction l with
  | nil => simp [cstr_nil, List.splitOn]
  | cons c t ih =>
    by_cases hn : c = NUL
    · simp [cstr_cons, hn, List.splitOn]
    · by_cases hc : c = ':'
      · subst hc
        simp [cstr_cons, hn, List.splitOn, List.dropWhile_cons, List.takeWhile_cons]
      · have hs : (c :: cstr t).splitOn ':' = ((cstr t).splitOn ':').modifyHead (List.cons c) := by
          simp [List.splitOn, hc]
        rw [cstr_cons, if_neg hn, hs, ih]
        simp only [List.dropWhile_cons, List.takeWhile_cons, hn, hc, List.mem_singleton,
          ne_eq, not_false_eq_true, decide_True, decide_False, Bool.not_false, Bool.and_self,
          if_true]
        split
        · simp
        · split <;> simp

theorem searchDirs_colon (t : List Char) : searchDirs (':' :: t) = searchDirs t := by
  have h1 : (':' : Char) ≠ NUL := by decide
  simp [searchDirs, searchPath, cstr_cons, h1, List.splitOn]

theorem searchDirs_skip (l : List Char) :
    searchDirs (l.dropWhile (fun c => decide (c ≠ NUL) && decide (c ∈ [':']))) = searchDirs l := by
  induction l with
  | nil => rfl
  | cons c t ih =>
    by_cases hc : c = ':'
    · subst hc
      have h1 : (':' : Char) ≠ NUL := by decide
      rw [List.dropWhile_cons, searchDirs_colon]
      simpa [h1] using ih
    · simp [List.dropWhile_cons, hc]

theorem searchDirs_nil : searchDirs [] = [] := by
  simp [searchDirs, searchPath, cstr_nil]

theorem searchDirs_NUL (t : List Char) : searchDirs (NUL :: t) = [] := by
  simp [searchDirs, searchPath, cstr_cons]

theorem dropWhile_head_false (p : Char → Bool) (l : List Char) (c : Char) (t : List Char)
    (h : l.dropWhile p = c :: t) : p c = false := by
  induction l with
  | nil => simp at h
  | cons a rest ih =>
    rw [List.dropWhile_cons] at h
    by_cases ha : p a = true
    · rw [if_pos ha] at h; exact ih h
    · rw [if_neg ha] at h
      injection h with h1 h2
      subst h1
      simpa using ha

/-- One call of `strtok(.., ":")` returns the first non-empty directory string of what is left
of the search path, leaves the rest of them to later calls, and moves the saved pointer on. -/
theorem strtok_colon (sc : Scan) :
    (strtok sc [':']).1 = (searchDirs sc.after).head? ∧
    searchDirs (strtok sc [':']).2.after = (searchDirs sc.after).tail ∧
    (strtok sc [':']).2.after.length + (if (strtok sc [':']).1.isSome then 1 else 0)
      ≤ sc.after.length := by
  have hskip := searchDirs_skip sc.after
  have hlen := (List.dropWhile_suffix (l := sc.after)
    (fun c => decide (c ≠ NUL) && decide (c ∈ [':']))).length_le
  have hhead : ∀ c t, sc.after.dropWhile (fun c => decide (c ≠ NUL) && decide (c ∈ [':']))
      = c :: t → (decide (c ≠ NUL) && decide (c ∈ [':'])) = false := by
    intro c t h
    exact dropWhile_head_false _ _ c t h
  rw [← hskip]
  unfold strtok
  simp only []
  generalize sc.after.dropWhile (fun c => decide (c ≠ NUL) && decide (c ∈ [':'])) = start at *
  cases start with
  | nil => simp [searchDirs_nil]
  | cons c t =>
    by_cases hn : c = NUL
    · subst hn
      simp only [List.length_cons] at hlen
      simp [searchDirs_NUL]
      omega
    · have hc : c ≠ ':' := by
        have := hhead c t rfl
        simpa [hn] using this
      have hsplit := splitOn_cstr (c :: t)
      have htd := List.takeWhile_append_dropWhile
        (fun c => decide (c ≠ NUL) && !decide (c ∈ [':'])) (c :: t)
      have htok : (c :: t).takeWhile (fun c => decide (c ≠ NUL) && !decide (c ∈ [':'])) ≠ [] := by
        simp [List.takeWhile_cons, hn, hc]
      have hl := congrArg List.length htd
      generalize (c :: t).takeWhile (fun c => decide (c ≠ NUL) && !decide (c ∈ [':'])) = tok at *
      have htl : 0 < tok.length := List.length_pos.mpr htok
      simp only [List.length_append, List.length_cons] at hl hlen
      simp only [if_neg hn]
      rcases hd : (c :: t).dropWhile (fun c => decide (c ≠ NUL) && !decide (c ∈ [':']))
        with _ | ⟨d, rest⟩
      · rw [hd] at hsplit hl
        simp only [searchDirs, searchPath, hsplit]
        simp at hl
        simp [htok, cstr_nil]
        omega
      · rw [hd] at hsplit hl
        by_cases hdn : d = NUL
        · simp only [searchDirs, searchPath, hsplit, if_pos hdn]
          subst hdn
          simp at hl
          simp [htok, cstr_cons]
          omega
        · simp only [searchDirs, searchPath, hsplit, if_neg hdn]
          simp at hl
          simp [htok]
          omega

theorem readdirLoop_eq (prog : CString) (entries : List CString) :
    readdirLoop prog entries = decide (prog ∈ entries) := by
  induction entries with
  | nil => simp [readdirLoop]
  | cons e rest ih =>
    by_cases h : e = prog
    · simp [readdirLoop, h]
    · have h' : ¬ prog = e := fun x => h x.symm
      simp [readdirLoop, h, h', ih]

/-- The function `is_in_path` answers whether the listing of the directory contains the name. -/
theorem is_in_path_eq_listed (ls : Listing) (prog path : CString) :
    is_in_path ls prog path = listed ls prog path := by
  unfold is_in_path listed
  cases ls path with
  | none => rfl
  | some entries => exact readdirLoop_eq prog entries

/-- The search loop, entered with the first of the directory strings `D` still to visit and
with the rest of them still in the buffer, stops at the first one that lists the program. -/
theorem searchLoop_spec (ls : Listing) (prog : CString) :
    ∀ (fuel : Nat) (D : List CString) (p : Option CString) (sc : Scan) (opened : List CString),
      p = D.head? → searchDirs sc.after = D.tail →
      sc.after.length + (if p.isSome then 2 else 1) ≤ fuel →
      ∃ P, searchLoop ls prog fuel p sc opened =
        .ok ⟨(match D.find? (listed ls prog) with
              | some d => d ++ '/' :: prog
              | none => prog), P, opened ++ visited (listed ls prog) D⟩ := by
  intro fuel
  induction fuel with
  | zero =>
    intro D p sc opened _ _ h
    split at h <;> omega
  | succ fuel ih =>
    intro D p sc opened hp hrest hfuel
    cases D with
    | nil =>
      simp only [List.head?_nil] at hp
      subst hp
      exact ⟨sc.buffer, by simp [searchLoop, visited]⟩
    | cons d D' =>
      simp only [List.head?_cons] at hp
      subst hp
      simp only [List.tail_cons] at hrest
      by_cases hit : listed ls prog d = true
      · exact ⟨sc.buffer, by simp [searchLoop, is_in_path_eq_listed, hit, visited]⟩
      · have hs := strtok_colon sc
        rw [hrest] at hs
        obtain ⟨h1, h2, h3⟩ := hs
        have hf : (strtok sc [':']).2.after.length +
            (if (strtok sc [':']).1.isSome then 2 else 1) ≤ fuel := by
          simp only [Option.isSome_some, if_true] at hfuel
          split at h3 <;> simp_all <;> omega
        obtain ⟨P, hP⟩ := ih D' (strtok sc [':']).1 (strtok sc [':']).2 (opened ++ [d]) h1 h2 hf
        refine ⟨P, ?_⟩
        simp only [searchLoop, is_in_path_eq_listed, hit, hP]
        simp [List.find?_cons, hit, visited]

/-- The resolution block always completes; it leaves a name that starts with `/` alone and
never opens a directory for it, and otherwise walks the non-empty directory strings of `PATH` in
order up to the first one that lists the name. -/
theorem resolve_spec (ls : Listing) (PATH : List Char) (name : CString) :
    ∃ P, resolve ls PATH name =
      .ok ⟨(if name.head? = some '/' then name else
              match (searchDirs PATH).find? (listed ls name) with
              | some d => d ++ '/' :: name
              | none => name), P,
           (if name.head? = some '/' then [] else visited (listed ls name) (searchDirs PATH))⟩ := by
  by_cases hs : name.head? = some '/'
  · refine ⟨PATH, ?_⟩
    have hl : 0 < name.length := by
      cases name with
      | nil => simp at hs
      | cons a t => simp
    simp [resolve, hs, hl]
  · have h0 := strtok_colon ⟨[], PATH⟩
    obtain ⟨h1, h2, h3⟩ := h0
    have hf : (strtok ⟨[], PATH⟩ [':']).2.after.length +
        (if (strtok ⟨[], PATH⟩ [':']).1.isSome then 2 else 1) ≤ PATH.length + 1 := by
      simp only at h3
      split at h3 <;> simp_all
    obtain ⟨P, hP⟩ := searchLoop_spec ls name (PATH.length + 1) (searchDirs PATH)
      (strtok ⟨[], PATH⟩ [':']).1 (strtok ⟨[], PATH⟩ [':']).2 [] h1 h2 hf
    refine ⟨P, ?_⟩
    have hneg : ¬ (0 < name.length ∧ name.head? = some '/') := fun h => hs h.2
    simp only [resolve, if_neg hneg, if_neg hs, hP, List.nil_append]

/-- A listing that cannot read the directory with the empty name finds the same first hit among
all directory strings of the search path as among the non-empty ones. -/
theorem find_searchPath (ls : Listing) (PATH : List Char) (name : CString)
    (hls : ls [] = none) :
    (searchPath PATH).find? (listed ls name) = (searchDirs PATH).find? (listed ls name) := by
  have h0 : listed ls name [] = false := by simp [listed, hls]
  unfold searchDirs
  generalize searchPath PATH = segs
  induction segs with
  | nil => rfl
  | cons s rest ih =>
    by_cases he : s = []
    · subst he
      simp [List.find?_cons, h0, List.filter_cons, ih]
    · simp [List.find?_cons, List.filter_cons, he, ih]

/-- C2: for every program name and every search path string, taking directory listings as a
given function (no listing for a directory that cannot be read, which includes the empty name):
a name that begins with `/` is the program path unchanged and no directory is opened;
otherwise the program path is `d/name` for the first directory string `d` of the search path,
in order, whose listing contains an entry equal to `name`, and the name itself when there is
none. The directories opened are the non-empty directory strings up to that first hit. -/
theorem resolve_first_match (ls : Listing) (PATH : List Char) (name : CString)
    (hls : ls [] = none) :
    ∃ r, resolve ls PATH name = .ok r ∧
      r.program = (if name.head? = some '/' then name else
        match (searchPath PATH).find? (listed ls name) with
        | some d => d ++ '/' :: name
        | none => name) ∧
      r.opened = (if name.head? = some '/' then []
        else visited (listed ls name) (searchDirs PATH)) := by
  obtain ⟨P, hP⟩ := resolve_spec ls PATH name
  exact ⟨_, hP, by rw [find_searchPath ls PATH name hls], rfl⟩

/-- Witness of C2: with `/a:/usr/bin` as search path, `ls` resolves to `/usr/bin/ls`. -/
theorem resolve_first_match_witness :
    ∃ r, resolve lsDemo "/a:/usr/bin".toList "ls".toList = .ok r ∧
      r.program = "/usr/bin/ls".toList ∧ r.opened = ["/a".toList, "/usr/bin".toList] := by
  obtain ⟨r, h1, h2, h3⟩ :=
    resolve_first_match lsDemo "/a:/usr/bin".toList "ls".toList (by decide)
  exact ⟨r, h1, h2.trans (by decide), h3.trans (by decide)⟩

/-! ## The read-eval step -/

theorem store_succ_head (args : List Slot) (i : Nat) (v : Slot) (a : List Slot)
    (h : store args (i + 1) v = .ok a) : a.head? = args.head? := by
  unfold store at h
  split at h
  · injection h with h
    subst h
    cases args <;> simp
  · cases h

theorem Res.bind_eq_ok {α β : Type} (r : Res α) (k : α → Res β) (b : β) :
    r.bind k = .ok b ↔ ∃ a, r = .ok a ∧ k a = .ok b := by
  cases r <;> simp [Res.bind]

/-- Once `position` is past 0 the loop never writes `args[0]` again. -/
theorem argLoop_head (tokens : List CString) :
    ∀ (fuel : Nat) (st st' : ArgState), 1 ≤ st.position →
      argLoop tokens fuel st = .ok st' →
      st'.args.head? = st.args.head? ∧ 1 ≤ st'.position := by
  intro fuel
  induction fuel with
  | zero => intro st st' _ h; simp [argLoop] at h
  | succ fuel ih =>
    intro st st' hpos h
    rw [argLoop] at h
    cases hg : tokens_get_token tokens st.position with
    | none =>
      simp only [hg] at h
      injection h with h; subst h; exact ⟨rfl, hpos⟩
    | some token =>
      simp only [hg] at h
      by_cases hgt : token = ">".toList
      · rw [if_pos hgt] at h
        injection h with h; subst h; exact ⟨rfl, by simp⟩
      · rw [if_neg hgt] at h
        by_cases hlt : token = "<".toList
        · rw [if_pos hlt] at h
          obtain ⟨a1, h1, h⟩ := (Res.bind_eq_ok _ _ _).mp h
          obtain ⟨a2, h2, h⟩ := (Res.bind_eq_ok _ _ _).mp h
          injection h with h; subst h
          exact ⟨(store_succ_head _ _ _ _ h2).trans (store_succ_head _ _ _ _ h1), by simp⟩
        · rw [if_neg hlt] at h
          obtain ⟨a1, h1, h⟩ := (Res.bind_eq_ok _ _ _).mp h
          obtain ⟨k, hk⟩ : ∃ k, st.position = k + 1 := ⟨st.position - 1, by omega⟩
          rw [hk] at h1
          have := ih _ st' (by simp) h
          exact ⟨this.1.trans (store_succ_head _ _ _ _ h1), this.2⟩

/-- The construction leaves an ordinary first token in `args[0]`. -/
theorem buildArgs_head (tokens : List CString) (name : CString) (st : ArgState)
    (h0 : tokens_get_token tokens 0 = some name)
    (hlt : name ≠ "<".toList) (hgt : name ≠ ">".toList)
    (hargs : buildArgs tokens = .ok st) :
    st.args.head? = some (.str name) := by
  unfold buildArgs at hargs
  obtain ⟨s1, h1, hargs⟩ := (Res.bind_eq_ok _ _ _).mp hargs
  obtain ⟨a, h2, hargs⟩ := (Res.bind_eq_ok _ _ _).mp hargs
  injection hargs with hargs; subst hargs
  rw [argLoop] at h1
  have h0' : tokens_get_token tokens ArgState.init.position = some name := h0
  simp only [h0', if_neg hgt, if_neg hlt] at h1
  obtain ⟨a1, h3, h1⟩ := (Res.bind_eq_ok _ _ _).mp h1
  have ha1 : a1.head? = some (.str name) := by
    unfold store at h3
    split at h3
    · injection h3 with h3; subst h3; simp [ArgState.init, ARGS_SIZE, List.replicate]
    · cases h3
  obtain ⟨hh, hp⟩ := argLoop_head tokens _ _ s1 (by simp) h1
  obtain ⟨k, hk⟩ : ∃ k, s1.position = k + 1 := ⟨s1.position - 1, by omega⟩
  rw [hk] at h2
  simp only
  rw [store_succ_head _ _ _ _ h2, hh]
  exact ha1

theorem visited_no_hit (hit : CString → Bool) (D : List CString)
    (h : ∀ d ∈ D, hit d = false) : visited hit D = D := by
  induction D with
  | nil => rfl
  | cons d rest ih =>
    simp [visited, h d (List.mem_cons_self _ _), ih (fun x hx => h x (List.mem_cons_of_mem _ hx))]

/-- C5 (amended): for every command line that fits the argument array, whose first token is
no builtin, no redirection token, does not begin with `/` and is listed in no directory of the
search path, the read-eval step opens every non-empty directory of the search path, then still
calls `fork` once, the child starting with the unresolved name in `args[0]`, waits, and goes
on to the next line. -/
theorem step_unresolved_still_forks (ls : Listing) (PATH : List Char)
    (tokens : List CString) (name : CString) (st : ArgState)
    (h0 : tokens_get_token tokens 0 = some name)
    (hnb : lookup (some name) = -1)
    (hlt : name ≠ "<".toList) (hgt : name ≠ ">".toList)
    (hargs : buildArgs tokens = .ok st)
    (hslash : name.head? ≠ some '/')
    (hnone : ∀ d ∈ searchPath PATH, listed ls name d = false) :
    st.args.head? = some (.str name) ∧
    ∃ P, step ls PATH tokens =
      .next P ((searchDirs PATH).map Event.opendir ++ [.fork st, .wait]) := by
  have hhead := buildArgs_head tokens name st h0 hlt hgt hargs
  refine ⟨hhead, ?_⟩
  have hnone' : ∀ d ∈ searchDirs PATH, listed ls name d = false := by
    intro d hd
    exact hnone d (List.mem_filter.mp hd).1
  obtain ⟨P, hP⟩ := resolve_spec ls PATH name
  have hfind : (searchDirs PATH).find? (listed ls name) = none := by
    rw [List.find?_eq_none]
    intro d hd
    simp [hnone' d hd]
  rw [if_neg hslash, if_neg hslash, hfind, visited_no_hit _ _ hnone'] at hP
  refine ⟨P, ?_⟩
  have hset : st.args.set 0 (.str name) = st.args := by
    cases hst : st.args with
    | nil => simp
    | cons a rest =>
      rw [hst] at hhead
      simp at hhead
      simp [hhead]
  have hheadD : st.args.headD .uninit = .str name := by
    cases hst : st.args with
    | nil => rw [hst] at hhead; simp at hhead
    | cons a rest =>
      rw [hst] at hhead
      simp at hhead
      simp [hhead]
  unfold step
  simp only [h0, hnb, hargs, hheadD, hP, hset]
  simp

/-- Witness of C5 (amended): `nosuch` with search path `/usr/bin`. -/
theorem step_unresolved_still_forks_witness :
    ∃ P, step lsDemo "/usr/bin".toList ["nosuch".toList] =
      .next P ((searchDirs "/usr/bin".toList).map Event.opendir ++
        [.fork ⟨.str "nosuch".toList :: .null :: List.replicate 8 .uninit, none, none, 1⟩,
         .wait]) :=
  (step_unresolved_still_forks lsDemo "/usr/bin".toList ["nosuch".toList] "nosuch".toList
    ⟨.str "nosuch".toList :: .null :: List.replicate 8 .uninit, none, none, 1⟩
    (by decide) (by decide) (by decide) (by decide) (by decide) (by decide) (by decide)).2

/-- C5, as stated, fails: `nosuch` is no builtin, does not begin with `/` and is listed in no
directory of the search path `/usr/bin`, and the step calls `fork`. -/
theorem step_unresolved_fork_example :
    lookup (some "nosuch".toList) = -1 ∧
    "nosuch".toList.head? ≠ some '/' ∧
    (∀ d ∈ searchPath "/usr/bin".toList, listed lsDemo "nosuch".toList d = false) ∧
    step lsDemo "/usr/bin".toList ["nosuch".toList] =
      .next "/usr/bin".toList [.opendir "/usr/bin".toList,
        .fork ⟨.str "nosuch".toList :: .null :: List.replicate 8 .uninit, none, none, 1⟩,
        .wait] := by
  decide

/-- C10 (evaluation): on a line without tokens no builtin is found, `args[0]` is `NULL`, and
the check `strlen(args[0])` of the resolution block dereferences it. -/
theorem step_blank_line (ls : Listing) (PATH : List Char) :
    lookup (tokens_get_token [] 0) = -1 ∧
    (buildArgs []).bind (fun st => .ok (st.args.headD .uninit)) = .ok .null ∧
    step ls PATH [] = .fault .nullDeref := by
  refine ⟨by decide, by decide, rfl⟩

/-- C6 (evaluation): when `execv` fails, a child without redirections ends in `exit(0)`; and
the child never falls back into the read-eval loop. -/
theorem child_exec_failure_exits_zero (fopen : CString → Bool) (args : List Slot)
    (position : Nat) (os : ChildOS) (st : ArgState) :
    child ⟨fopen, fun _ _ => false⟩ ⟨args, none, none, position⟩ = .exited 0 ∧
    child os st ≠ .returned := by
  constructor
  · rfl
  · intro h
    unfold child at h
    simp only [] at h
    repeat' split at h
    all_goals cases h

/-! ## `cmd_export` -/

/-- A call of `strtok` at the start of a non-empty run of bytes that holds neither a NUL nor a
delimiter returns the whole run and writes nothing. -/
theorem strtok_whole (b l delim : List Char) (hne : l ≠ [])
    (h : ∀ c ∈ l, c ≠ NUL ∧ c ∉ delim) :
    strtok ⟨b, l⟩ delim = (some l, ⟨b ++ l, []⟩) := by
  have hskip : l.dropWhile (fun c => decide (c ≠ NUL) && decide (c ∈ delim)) = l := by
    cases l with
    | nil => rfl
    | cons a t =>
      have := h a (List.mem_cons_self _ _)
      simp [List.dropWhile_cons, this.1, this.2]
  have htake0 : l.takeWhile (fun c => decide (c ≠ NUL) && decide (c ∈ delim)) = [] := by
    cases l with
    | nil => rfl
    | cons a t =>
      have := h a (List.mem_cons_self _ _)
      simp [List.takeWhile_cons, this.1, this.2]
  have htake : l.takeWhile (fun c => decide (c ≠ NUL) && !decide (c ∈ delim)) = l := by
    rw [List.takeWhile_eq_self_iff]
    intro x hx
    have := h x hx
    simp [this.1, this.2]
  have hdrop : l.dropWhile (fun c => decide (c ≠ NUL) && !decide (c ∈ delim)) = [] := by
    rw [List.dropWhile_eq_nil_iff]
    intro x hx
    have := h x hx
    simp [this.1, this.2]
  unfold strtok
  simp only [hskip, htake0, htake, hdrop, List.append_nil]
  cases l with
  | nil => exact absurd rfl hne
  | cons a t =>
    have := h a (List.mem_cons_self _ _)
    simp [this.1]

theorem tokenEnd_of_no_NUL (b l : List Char) (hne : l ≠ []) (h : ∀ c ∈ l, c ≠ NUL) :
    tokenEnd ⟨b ++ l, []⟩ = b.length + l.length := by
  unfold tokenEnd
  have hl : (b ++ l).getLast? = l.getLast? := by
    rw [List.getLast?_append]
    cases hg : l.getLast? with
    | none => simp [List.getLast?_eq_none_iff] at hg; exact absurd hg hne
    | some x => simp
  have : l.getLast? ≠ some NUL := by
    intro hc
    exact h NUL (List.mem_of_getLast?_eq_some hc) rfl
  simp only [hl, if_neg this, List.length_append]

/-- For every token line `export PATH=value` whose value is not empty and holds no `:` and no
`=`, whatever the prior search path: the new search path does not fit into token 1, and the
`strcat` calls of `cmd_export` store past the end of the token. -/
theorem cmd_export_plain_value_past_token (value : CString) (PATH : List Char)
    (hne : value ≠ [])
    (h : ∀ c ∈ value, c ≠ NUL ∧ c ≠ ':' ∧ c ≠ '=') :
    cmd_export ["export".toList, "PATH=".toList ++ value] PATH = .fault .pastToken := by
  have harg : ∀ c ∈ "PATH=".toList ++ value, c ≠ NUL ∧ c ∉ [':'] := by
    intro c hc
    rcases List.mem_append.mp hc with hc | hc
    · simp only [String.toList, List.mem_cons, List.mem_singleton, List.not_mem_nil,
        or_false] at hc
      rcases hc with rfl | rfl | rfl | rfl | rfl <;> decide
    · have := h c hc
      exact ⟨this.1, by simpa using this.2.1⟩
  have h1 := strtok_whole [] ("PATH=".toList ++ value) [':'] (by simp) harg
  have hend1 := tokenEnd_of_no_NUL [] ("PATH=".toList ++ value) (by simp)
    (fun c hc => (harg c hc).1)
  have h2 : strtok ⟨[], "PATH=".toList ++ value⟩ ['='] =
      (some "PATH".toList, ⟨"PATH".toList ++ [NUL], value⟩) := by
    have n1 : ('P' : Char) ≠ NUL := by decide
    have n2 : ('A' : Char) ≠ NUL := by decide
    have n3 : ('T' : Char) ≠ NUL := by decide
    have n4 : ('H' : Char) ≠ NUL := by decide
    have n5 : ('=' : Char) ≠ NUL := by decide
    simp [strtok, List.takeWhile_cons, List.dropWhile_cons, n1, n2, n3, n4, n5]
  have h3 := strtok_whole ("PATH".toList ++ [NUL]) value ['='] hne
    (fun c hc => ⟨(h c hc).1, by simpa using (h c hc).2.2⟩)
  have hend3 := tokenEnd_of_no_NUL ("PATH".toList ++ [NUL]) value hne (fun c hc => (h c hc).1)
  have e2 : strtok ⟨List.take
        (tokenEnd ⟨"PATH=".toList ++ value, []⟩ - ("PATH=".toList ++ value).length)
        (Scan.buffer ⟨"PATH=".toList ++ value, []⟩),
      List.drop
        (tokenEnd ⟨"PATH=".toList ++ value, []⟩ - ("PATH=".toList ++ value).length)
        (Scan.buffer ⟨"PATH=".toList ++ value, []⟩)⟩ ['='] =
      (some "PATH".toList, ⟨"PATH".toList ++ [NUL], value⟩) := by
    simp only [List.nil_append] at hend1
    rw [hend1]
    simp only [List.length_nil, Nat.zero_add, Nat.sub_self, Scan.buffer, List.append_nil,
      List.take_zero, List.drop_zero]
    exact h2
  unfold cmd_export
  simp only [tokens_get_token, List.get?]
  rw [h1]
  simp only [List.nil_append]
  simp only [e2, h3, hend3]
  rw [if_neg]
  simp [tokenStorage]
  omega

/-- C3 (evaluation): with `/usr/bin` as prior search path, `export PATH=/a/b` makes the `strcat`
calls store past the end of token 1, and so does `export PATH=/a:/b`, where moreover only `/a`
is taken from the value. On `export PATH=/a:/usr/bin:x` the bytes behind `/a` give room: `PATH`
becomes `/a:/usr/bin` inside token 1, and the pass ends with `PATH` pointing into the freed
token. -/
theorem cmd_export_in_place_eval :
    cmd_export ["export".toList, "PATH=/a/b".toList] "/usr/bin".toList = .fault .pastToken ∧
    step lsDemo "/usr/bin".toList ["export".toList, "PATH=/a/b".toList] = .fault .pastToken ∧
    cmd_export ["export".toList, "PATH=/a:/b".toList] "/usr/bin".toList = .fault .pastToken ∧
    cmd_export ["export".toList, "PATH=/a:/usr/bin:x".toList] "/usr/bin".toList =
      .ok "/a:/usr/bin".toList ∧
    step lsDemo "/usr/bin".toList ["export".toList, "PATH=/a:/usr/bin:x".toList] =
      .nextFreed [.builtin .cmd_export] := by
  decide

end Shell

namespace WordCount

open Shell (CString)

/-! ## Word-count list -/

theorem toInt32_succ (c : Int) (h1 : INT_MIN ≤ c) (h2 : c < INT_MAX) : toInt32 (c + 1) = c + 1 := by
  unfold toInt32
  unfold INT_MIN at h1
  unfold INT_MAX at h2
  omega

theorem add_word_nil (w : CString) : (add_word [] w).1 = [⟨w, 1⟩] := rfl

theorem add_word_cons (e : word_count_t) (r : word_count_list_t) (w : CString) :
    (add_word (e :: r) w).1 =
      if e.word = w then { e with count := toInt32 (e.count + 1) } :: r
      else e :: (add_word r w).1 := by
  unfold add_word add_word_with_count
  by_cases h : e.word = w
  · simp [find_word, h, incrCount]
  · simp only [find_word, h, if_false]
    cases hf : find_word r w with
    | none => simp
    | some i => simp [incrCount]

/-- What `find_word` returns is the position of the first entry with the word. -/
theorem find_word_entry (R : word_count_list_t) (x : CString) :
    (find_word R x = none ∧ R.find? (fun e => decide (e.word = x)) = none) ∨
    (∃ i e, find_word R x = some i ∧ R[i]? = some e ∧
      R.find? (fun e => decide (e.word = x)) = some e ∧ e.word = x) := by
  induction R with
  | nil => left; simp [find_word]
  | cons a r ih =>
    by_cases h : a.word = x
    · right
      exact ⟨0, a, by simp [find_word, h], by simp, by simp [List.find?_cons, h], h⟩
    · rcases ih with ⟨h1, h2⟩ | ⟨i, e, h1, h2, h3, h4⟩
      · left
        simp [find_word, h, h1, List.find?_cons, h2]
      · right
        exact ⟨i + 1, e, by simp [find_word, h, h1], by simpa using h2,
          by simp [List.find?_cons, h, h3], h4⟩

/-- The entry of a word after `add_word`. -/
theorem find_add_word (R : word_count_list_t) (w x : CString) :
    (add_word R w).1.find? (fun e => decide (e.word = x)) =
      if x = w then
        some ⟨w, match R.find? (fun e => decide (e.word = w)) with
                 | some e => toInt32 (e.count + 1)
                 | none => 1⟩
      else R.find? (fun e => decide (e.word = x)) := by
  induction R with
  | nil =>
    by_cases hx : x = w
    · subst hx; simp [add_word_nil]
    · have : ¬ w = x := fun h => hx h.symm
      simp [add_word_nil, hx, this]
  | cons a r ih =>
    rw [add_word_cons]
    by_cases ha : a.word = w
    · by_cases hx : x = w
      · subst hx
        simp [ha, List.find?_cons]
      · have h1 : ¬ a.word = x := fun h => hx (h.symm.trans ha)
        have h2 : ¬ w = x := fun h => hx h.symm
        rw [if_pos ha, if_neg hx]
        simp [List.find?_cons, h1, ha, h2]
    · by_cases hx : x = w
      · subst hx
        simp [ha, List.find?_cons, ih]
      · simp only [if_neg ha, List.find?_cons, ih, if_neg hx]

theorem length_add_word (R : word_count_list_t) (w : CString) :
    (add_word R w).1.length =
      R.length + (if (R.find? (fun e => decide (e.word = w))).isSome then 0 else 1) := by
  induction R with
  | nil => simp [add_word_nil]
  | cons a r ih =>
    rw [add_word_cons]
    by_cases ha : a.word = w
    · simp [ha, List.find?_cons]
    · rw [if_neg ha]
      simp only [List.length_cons, ih, List.find?_cons, ha, decide_False]
      omega

theorem add_words_snoc (ws : List CString) (w : CString) :
    add_words (ws ++ [w]) = (add_word (add_words ws) w).1 := by
  simp [add_words, List.foldl_append]

/-- After adding a sequence in which no word occurs more than `INT_MAX` times, the entry of a
word holds its number of occurrences, and words that did not occur have no entry. -/
theorem find_add_words (ws : List CString) (hws : ∀ y ∈ ws, ws.count y ≤ 2147483647)
    (x : CString) :
    (add_words ws).find? (fun e => decide (e.word = x)) =
      if x ∈ ws then some ⟨x, (ws.count x : Int)⟩ else none := by
  induction ws using List.reverseRecOn with
  | nil => simp [add_words, init_words]
  | append_singleton ws w ih =>
    have hpre : ∀ y ∈ ws, ws.count y ≤ 2147483647 := by
      intro y hy
      have h1 := hws y (List.mem_append_left _ hy)
      rw [List.count_append] at h1
      omega
    have ih' := ih hpre
    rw [add_words_snoc, find_add_word]
    by_cases hx : x = w
    · subst hx
      have ihx := ih'
      have hc : (ws.count x : Int) < INT_MAX := by
        have h1 := hws x (List.mem_append_right _ (List.mem_singleton_self x))
        rw [List.count_append, List.count_singleton_self] at h1
        unfold INT_MAX; omega
      have hc0 : INT_MIN ≤ (ws.count x : Int) := by unfold INT_MIN; omega
      by_cases hm : x ∈ ws
      · simp only [hm, if_true] at ihx
        simp [ihx, toInt32_succ _ hc0 hc, List.count_append]
      · simp only [hm, if_false] at ihx
        have h0 : ws.count x = 0 := List.count_eq_zero.mpr hm
        simp [ihx, List.count_append, h0]
    · have hxw : ¬ w = x := fun h => hx h.symm
      simp only [if_neg hx, ih', List.mem_append, List.mem_singleton, hx, or_false,
        List.count_append]
      simp [List.count_singleton, hxw]

theorem length_add_words (ws : List CString) (hws : ∀ y ∈ ws, ws.count y ≤ 2147483647) :
    (add_words ws).length = ws.toFinset.card := by
  induction ws using List.reverseRecOn with
  | nil => simp [add_words, init_words]
  | append_singleton ws w ih =>
    have hpre : ∀ y ∈ ws, ws.count y ≤ 2147483647 := by
      intro y hy
      have h1 := hws y (List.mem_append_left _ hy)
      rw [List.count_append] at h1
      omega
    rw [add_words_snoc, length_add_word, find_add_words ws hpre, ih hpre]
    have hu : (ws ++ [w]).toFinset = insert w ws.toFinset := by
      ext y; simp [or_comm]
    rw [hu]
    by_cases hm : w ∈ ws
    · simp [hm]
    · rw [Finset.card_insert_of_not_mem (by simpa using hm)]
      simp [hm]

theorem lenLoop_eq (R : word_count_list_t) :
    ∀ cnt : Int, 0 ≤ cnt → cnt + R.length ≤ INT_MAX → lenLoop R cnt = cnt + R.length := by
  induction R with
  | nil => intro cnt _ _; simp [lenLoop]
  | cons a r ih =>
    intro cnt h0 h
    simp only [List.length_cons, Nat.cast_add, Nat.cast_one] at h
    have h1 : toInt32 (cnt + 1) = cnt + 1 :=
      toInt32_succ cnt (by unfold INT_MIN; omega) (by omega)
    rw [lenLoop, h1, ih (cnt + 1) (by omega) (by omega)]
    simp only [List.length_cons, Nat.cast_add, Nat.cast_one]
    ring

theorem len_words_eq (R : word_count_list_t) (h : R.length ≤ 2147483647) :
    len_words R = R.length := by
  unfold len_words
  rw [lenLoop_eq R 0 (le_refl _) (by unfold INT_MAX; omega)]
  unfold toSizeT
  omega

theorem incrCount_eq_set (L : word_count_list_t) :
    ∀ (i : Nat) (e : word_count_t), L[i]? = some e →
      incrCount L i = L.set i ⟨e.word, toInt32 (e.count + 1)⟩ := by
  induction L with
  | nil => intro i e h; simp at h
  | cons a r ih =>
    intro i e h
    cases i with
    | zero =>
      simp only [List.getElem?_cons_zero, Option.some.injEq] at h
      subst h
      simp [incrCount]
    | succ i =>
      simp only [List.getElem?_cons_succ] at h
      simp [incrCount, ih i e h]

theorem find_word_set (L : word_count_list_t) (x : CString) :
    ∀ (i : Nat) (e : word_count_t) (c : Int), L[i]? = some e →
      find_word (L.set i ⟨e.word, c⟩) x = find_word L x := by
  induction L with
  | nil => intro i e c h; simp at h
  | cons a r ih =>
    intro i e c h
    cases i with
    | zero =>
      simp only [List.getElem?_cons_zero, Option.some.injEq] at h
      subst h
      simp [find_word]
    | succ i =>
      simp only [List.getElem?_cons_succ] at h
      simp [find_word, ih i e c h]

theorem find_word_append_new (L : word_count_list_t) (w : CString) (c : Int)
    (h : find_word L w = none) : find_word (L ++ [⟨w, c⟩]) w = some L.length := by
  induction L with
  | nil => simp [find_word]
  | cons a r ih =>
    by_cases ha : a.word = w
    · simp [find_word, ha] at h
    · simp only [find_word, ha, if_false, Option.map_eq_none'] at h
      simp [find_word, ha, ih h]

/-- C9 (amended): `add_word` on a list in which every entry for the word holds an `int` below
`INT_MAX`: when `find_word` finds an entry for the word, the count of that entry goes up by
exactly one and the length of the list stays; otherwise one entry with count 1 is appended and
the length grows by one; in both cases every other entry is unchanged and `find_word`
afterwards returns the entry of the word, which is the entry `add_word` returns. After adding,
to an initialised list, a sequence in which no word occurs more than `INT_MAX` times and which
has at most `INT_MAX` distinct words, the count of every word is its number of occurrences in
the sequence, words outside the sequence have no entry, and `len_words` is the number of
distinct words. -/
theorem add_word_counts (L : word_count_list_t) (w : CString) (ws : List CString)
    (hL : ∀ e ∈ L, e.word = w → INT_MIN ≤ e.count ∧ e.count < INT_MAX)
    (hocc : ∀ y ∈ ws, ws.count y ≤ 2147483647)
    (hcard : ws.toFinset.card ≤ 2147483647) :
    (∀ i, find_word L w = some i →
      ∃ e, L[i]? = some e ∧ e.word = w ∧
        add_word L w = (L.set i ⟨w, e.count + 1⟩, i) ∧
        (add_word L w).1.length = L.length) ∧
    (find_word L w = none →
      add_word L w = (L ++ [⟨w, 1⟩], L.length) ∧
      (add_word L w).1.length = L.length + 1) ∧
    (∀ j, j < L.length → find_word L w ≠ some j → (add_word L w).1[j]? = L[j]?) ∧
    (∃ e, find_word (add_word L w).1 w = some (add_word L w).2 ∧
      (add_word L w).1[(add_word L w).2]? = some e ∧ e.word = w) ∧
    (∀ x ∈ ws, ∃ i e, find_word (add_words ws) x = some i ∧
      (add_words ws)[i]? = some e ∧ e.word = x ∧ e.count = ws.count x) ∧
    (∀ x, x ∉ ws → find_word (add_words ws) x = none) ∧
    len_words (add_words ws) = ws.toFinset.card := by
  have hfound : ∀ i, find_word L w = some i →
      ∃ e, L[i]? = some e ∧ e.word = w ∧ add_word L w = (L.set i ⟨w, e.count + 1⟩, i) := by
    intro i hi
    rcases find_word_entry L w with ⟨h1, _⟩ | ⟨i', e, h1, h2, _, h4⟩
    · rw [h1] at hi; cases hi
    · rw [h1] at hi
      injection hi with hi
      subst hi
      have hb := hL e (List.getElem?_mem h2) h4
      refine ⟨e, h2, h4, ?_⟩
      simp only [add_word, add_word_with_count, h1]
      rw [incrCount_eq_set L i' e h2, toInt32_succ _ hb.1 hb.2, h4]
  have hnew : find_word L w = none → add_word L w = (L ++ [⟨w, 1⟩], L.length) := by
    intro h
    simp only [add_word, add_word_with_count, h]
  refine ⟨?_, ?_, ?_, ?_, ?_, ?_, ?_⟩
  · intro i hi
    obtain ⟨e, h1, h2, h3⟩ := hfound i hi
    exact ⟨e, h1, h2, h3, by rw [h3]; simp⟩
  · intro h
    exact ⟨hnew h, by rw [hnew h]; simp⟩
  · intro j hj hne
    cases hf : find_word L w with
    | none =>
      rw [hnew hf]
      exact List.getElem?_append_left hj
    | some i =>
      obtain ⟨e, _, _, h3⟩ := hfound i hf
      rw [h3]
      have hij : i ≠ j := fun h => hne (by rw [hf, h])
      simp [List.getElem?_set_ne hij]
  · cases hf : find_word L w with
    | none =>
      rw [hnew hf]
      exact ⟨⟨w, 1⟩, find_word_append_new L w 1 hf, by simp, rfl⟩
    | some i =>
      obtain ⟨e, h1, h2, h3⟩ := hfound i hf
      rw [h3]
      have hlt : i < L.length := (List.getElem?_eq_some.mp h1).1
      refine ⟨⟨w, e.count + 1⟩, ?_, by simp [hlt], rfl⟩
      have := find_word_set L w i e (e.count + 1) h1
      rw [h2] at this
      rw [this, hf]
  · intro x hx
    have hfind := find_add_words ws hocc x
    rw [if_pos hx] at hfind
    rcases find_word_entry (add_words ws) x with ⟨_, h2⟩ | ⟨i, e, h1, h2, h3, h4⟩
    · rw [h2] at hfind; cases hfind
    · rw [h3] at hfind
      injection hfind with hfind
      exact ⟨i, e, h1, h2, h4, by rw [hfind]⟩
  · intro x hx
    have hfind := find_add_words ws hocc x
    rw [if_neg hx] at hfind
    rcases find_word_entry (add_words ws) x with ⟨h1, _⟩ | ⟨i, e, _, _, h3, _⟩
    · exact h1
    · rw [h3] at hfind; cases hfind
  · have hlen := length_add_words ws hocc
    rw [len_words_eq _ (by omega), hlen]

/-- Witness of C9 (amended): the word `b` added to a list that holds `a` once and `b` twice,
and the three words `a b a` added to an empty list. -/
theorem add_word_counts_witness :
    (∃ e, find_word (add_word [⟨"a".toList, 1⟩, ⟨"b".toList, 2⟩] "b".toList).1 "b".toList =
        some (add_word [⟨"a".toList, 1⟩, ⟨"b".toList, 2⟩] "b".toList).2 ∧
      (add_word [⟨"a".toList, 1⟩, ⟨"b".toList, 2⟩] "b".toList).1[
        (add_word [⟨"a".toList, 1⟩, ⟨"b".toList, 2⟩] "b".toList).2]? = some e ∧
      e.word = "b".toList) ∧
    len_words (add_words ["a".toList, "b".toList, "a".toList]) =
      ["a".toList, "b".toList, "a".toList].toFinset.card :=
  have h := add_word_counts [⟨"a".toList, 1⟩, ⟨"b".toList, 2⟩] "b".toList
    ["a".toList, "b".toList, "a".toList] (by decide) (by decide) (by decide)
  ⟨h.2.2.2.1, h.2.2.2.2.2.2⟩

/-- C9, as stated, fails: in a list whose entry for `a` holds `INT_MAX`, `find_word` finds the
entry and `add_word` leaves it with `INT_MIN`, which is not the count plus one. -/
theorem add_word_wraps_at_INT_MAX :
    find_word [⟨"a".toList, 2147483647⟩] "a".toList = some 0 ∧
    add_word [⟨"a".toList, 2147483647⟩] "a".toList = ([⟨"a".toList, -2147483648⟩], 0) ∧
    (-2147483648 : Int) ≠ 2147483647 + 1 := by
  decide

end WordCount
